import Mathlib

/-!
Shallow embedding of the core of the `bfp` prediction platform
(`pltform/game.py`, `pltform/analysis.py`, `pltform/pool.py`).

Modelling conventions:
* Python `datetime` values are modelled as natural numbers ordered like the
  timestamps (ISO strings compare consistently with the datetimes they encode).
* `FloatField` values (`pt_spread`) and the integer box-score fields are
  modelled as exact integers: every value these claims touch is a whole
  number, and float arithmetic on such values is exact.
* Nullable columns that the control flow branches on (`winner`, `is_tie`,
  `pt_spread`) are `Option`s; Python truthiness of those fields is translated
  explicitly at each use site.
* peewee model instances compare by primary key, so team comparisons are
  comparisons of the `code` key.
* Python `dict`s (insertion ordered, unique keys) are modelled as association
  lists updated in place, with new keys appended at the end.
-/

namespace BFP

/-- `Team` (team.py): reference entity keyed by `code`, with conference and
division metadata used by the join filters. -/
structure Team where
  code : String
  conf : String
  div  : String
deriving DecidableEq

/-- `Game` (game.py): one scheduled or completed contest.  Fields not used by
any analysed code path (`day`, `neutral_site`, `boxscore_url`, `over_under`,
`loser`) are omitted. -/
structure Game where
  season    : Int
  week      : Int
  datetime  : Nat
  home_team : Team
  away_team : Team
  pt_spread : Option Int   -- negative - home favorite, 0 - pick'em, none - unavailable
  winner    : Option Team
  is_tie    : Option Bool
  home_pts  : Int
  home_yds  : Int
  home_tos  : Int
  away_pts  : Int
  away_yds  : Int
  away_tos  : Int
deriving DecidableEq

/-- Python truthiness of the nullable `is_tie` column (`None` and `False` are
both falsy). -/
def Game.tied (g : Game) : Bool := g.is_tie.getD false

/-- peewee `Model.__eq__` compares primary keys, so `game.winner == team` is a
code comparison (false when `winner` is null). -/
def Game.winner_is (g : Game) (t : Team) : Bool :=
  match g.winner with
  | some w => w.code == t.code
  | none   => false

/-- `Game.home_vs_spread` (game.py): `home_pts + pt_spread - away_pts`, null
when there is no spread. -/
def Game.home_vs_spread (g : Game) : Option Int :=
  match g.pt_spread with
  | none   => none
  | some s => some (g.home_pts + s - g.away_pts)

/-- `Game.away_vs_spread` (game.py): negation of the home margin. -/
def Game.away_vs_spread (g : Game) : Option Int :=
  match g.home_vs_spread with
  | none   => none
  | some v => some (-v)

/-- `Game.ats_winner` (game.py): null if no spread or on an exact cover
(push); otherwise the side that beat the spread. -/
def Game.ats_winner (g : Game) : Option Team :=
  match g.home_vs_spread with
  | none   => none
  | some v => if v = 0 then none else if v > 0 then some g.home_team else some g.away_team

/-- `Pick` (game.py): an immutable prediction for one game. -/
structure Pick where
  su_winner  : Team
  ats_winner : Option Team
  pts_margin : Int
  total_pts  : Int
deriving DecidableEq

/-- `Score` (pool.py): `[wins, losses, ties]` counter for picks. -/
structure Score where
  wins   : Nat
  losses : Nat
  ties   : Nat
deriving DecidableEq

/-- `Score.empty()` -/
def Score.empty : Score := ⟨0, 0, 0⟩

/-- `Counter.total()` on a `Score`. -/
def Score.total (s : Score) : Nat := s.wins + s.losses + s.ties

/-- `Score.is_empty()` -/
def Score.is_empty (s : Score) : Bool := s.total == 0

/-- Pointwise `Counter` addition on `Score`s. -/
def Score.add (a b : Score) : Score := ⟨a.wins + b.wins, a.losses + b.losses, a.ties + b.ties⟩

/-- `Score.init_scores()`: `[su_score, ats_score]`, both empty.  The Python
`Scores` list `[su, ats]` is modelled as a pair. -/
def init_scores : Score × Score := (Score.empty, Score.empty)

/-- `int(bool)` -/
def b2n (b : Bool) : Nat := if b then 1 else 0

/-- Python truthiness of the nullable float `pt_spread`: `None` and `0.0` are
both falsy (`if game.pt_spread ...` in `compute_scores`). -/
def spread_truthy : Option Int → Bool
  | none   => false
  | some s => s != 0

/-- `pick.ats_winner == game.ats_winner` under peewee semantics: primary-key
comparison, false when either side is null. -/
def opt_team_eq (a b : Option Team) : Bool :=
  match a, b with
  | some x, some y => x.code == y.code
  | _, _ => false

/-- `compute_scores` (pool.py): SU and ATS score tuples for an individual pick
against a game. -/
def compute_scores (game : Game) (pick : Pick) : Score × Score :=
  match game.winner with
  | none => (Score.empty, Score.empty)
  | some w =>
    let su_win  := !game.tied && pick.su_winner.code == w.code && pick.pts_margin > 0
    let su_loss := !game.tied && (pick.su_winner.code != w.code || pick.pts_margin == 0)
    let su_tie  := game.tied
    let su_score : Score := ⟨b2n su_win, b2n su_loss, b2n su_tie⟩
    let ats_score : Score :=
      if spread_truthy game.pt_spread && pick.ats_winner.isSome then
        let gw := game.ats_winner
        let ats_win  := gw.isSome && opt_team_eq pick.ats_winner gw
        let ats_loss := gw.isSome && !opt_team_eq pick.ats_winner gw
        let ats_tie  := gw.isNone
        ⟨b2n ats_win, b2n ats_loss, b2n ats_tie⟩
      else Score.empty
    (su_score, ats_score)

/-- `GameCtx` (game.py): the context fields of the game being analysed that
the filters consult (`season`, `datetime`, the two teams). -/
structure GameCtx where
  season    : Int
  datetime  : Nat
  home_team : Team
  away_team : Team
deriving DecidableEq

/-- `FilterType` (analysis.py): application phase of a filter. -/
inductive FilterType where
  | SELECT | JOIN | WHERE | GROUP_BY | HAVING | ORDER_BY | LIMIT
deriving DecidableEq

/-- The `Enum` value of each phase. -/
def FilterType.value : FilterType → Nat
  | .SELECT   => 1
  | .JOIN     => 2
  | .WHERE    => 3
  | .GROUP_BY => 4
  | .HAVING   => 5
  | .ORDER_BY => 6
  | .LIMIT    => 7

/-- The concrete (implemented) analysis filters of analysis.py.  The
underscore-prefixed Python classes are the framework-injected ones. -/
inductive AnlyFilter where
  | team (opp : Team)        -- AnlyFilterTeam
  | div (d : String)         -- AnlyFilterDiv
  | conf (c : String)        -- AnlyFilterConf
  | games (n : Nat)          -- AnlyFilterGames
  | seasons (n : Int)        -- AnlyFilterSeasons
  | timeframe                -- _AnlyFilterTimeframe
  | revChron                 -- _AnlyFilterRevChron
  | selfScope                -- _AnlyFilterSelf
deriving DecidableEq

/-- The `type` class attribute of each filter. -/
def AnlyFilter.type : AnlyFilter → FilterType
  | .team _    => .WHERE
  | .div _     => .WHERE
  | .conf _    => .WHERE
  | .games _   => .LIMIT
  | .seasons _ => .WHERE
  | .timeframe => .WHERE
  | .revChron  => .ORDER_BY
  | .selfScope => .WHERE

/-- `TEAM_SCOPE_FILTERS` membership. -/
def AnlyFilter.team_scope : AnlyFilter → Bool
  | .team _    => true
  | .div _     => true
  | .conf _    => true
  | .selfScope => true
  | _          => false

/-- `FRAMEWORK_FILTERS` membership. -/
def AnlyFilter.framework : AnlyFilter → Bool
  | .timeframe => true
  | .revChron  => true
  | .selfScope => true
  | _          => false

/-- The WHERE conditions a filter can attach to a query.  The peewee join
against the `Team` aliases in the division/conference filters only serves to
make the opponent metadata available to the condition, so the join plus its
condition is embedded as a single condition over the (team-enriched) game
row. -/
inductive Cond where
  | opponent (my opp : String)          -- AnlyFilterTeam where-clause
  | oppDiv (my d : String)              -- AnlyFilterDiv join + where-clause
  | oppConf (my c : String)             -- AnlyFilterConf join + where-clause
  | seasonBetween (lo hi : Int)         -- AnlyFilterSeasons (SQL BETWEEN, inclusive)
  | beforeDT (dt : Nat)                 -- _AnlyFilterTimeframe (strictly earlier)
  | selfTeam (my : String)              -- _AnlyFilterSelf
deriving DecidableEq

/-- Evaluate a condition on a game row. -/
def Cond.eval : Cond → Game → Bool
  | .opponent my opp, g =>
      (g.home_team.code == my && g.away_team.code == opp) ||
      (g.home_team.code == opp && g.away_team.code == my)
  | .oppDiv my d, g =>
      (g.home_team.code == my && g.away_team.div == d) ||
      (g.away_team.code == my && g.home_team.div == d)
  | .oppConf my c, g =>
      (g.home_team.code == my && g.away_team.conf == c) ||
      (g.away_team.code == my && g.home_team.conf == c)
  | .seasonBetween lo hi, g => decide (lo ≤ g.season) && decide (g.season ≤ hi)
  | .beforeDT dt, g => decide (g.datetime < dt)
  | .selfTeam my, g => g.home_team.code == my || g.away_team.code == my

/-- The peewee `ModelSelect` value as transformed by the filters: accumulated
WHERE conditions (successive `.where` calls AND together), whether the
reverse-chronological `order_by` has been set (successive `.order_by` calls
replace each other, and only one ordering exists in the code), and the LIMIT
(successive `.limit` calls replace each other). -/
structure Query where
  conds     : List Cond
  rev_chron : Bool
  lim       : Option Nat
deriving DecidableEq

/-- `Game.select()` -/
def Query.init : Query := ⟨[], false, none⟩

/-- `AnlyFilter.apply` of each filter class (analysis.py). -/
def AnlyFilter.apply (f : AnlyFilter) (ctx : GameCtx) (my : Team) (q : Query) : Query :=
  match f with
  | .team opp  => { q with conds := q.conds ++ [.opponent my.code opp.code] }
  | .div d     => { q with conds := q.conds ++ [.oppDiv my.code d] }
  | .conf c    => { q with conds := q.conds ++ [.oppConf my.code c] }
  | .games n   => { q with lim := some n }
  | .seasons n => { q with conds := q.conds ++ [.seasonBetween (ctx.season - n + 1) ctx.season] }
  | .timeframe => { q with conds := q.conds ++ [.beforeDT ctx.datetime] }
  | .revChron  => { q with rev_chron := true }
  | .selfScope => { q with conds := q.conds ++ [.selfTeam my.code] }

/-- The conditions a single filter appends to the query (the WHERE part of
its `apply`). -/
def cond_adds (ctxq : GameCtx) (my : Team) : AnlyFilter → List Cond
  | .team opp  => [.opponent my.code opp.code]
  | .div d     => [.oppDiv my.code d]
  | .conf c    => [.oppConf my.code c]
  | .games _   => []
  | .seasons n => [.seasonBetween (ctxq.season - n + 1) ctxq.season]
  | .timeframe => [.beforeDT ctxq.datetime]
  | .revChron  => []
  | .selfScope => [.selfTeam my.code]

/-- Whether a filter sets the reverse-chronological ordering. -/
def sets_order : AnlyFilter → Bool
  | .revChron => true
  | _         => false

/-- The LIMIT a filter sets, if any. -/
def lim_param : AnlyFilter → Option Nat
  | .games n => some n
  | _        => none

/-- A row passes a query when it satisfies every accumulated condition. -/
def Query.passes (q : Query) (g : Game) : Bool := q.conds.all (fun c => c.eval g)

/-- Execute a query against the game table: restrict, order, limit. -/
def Query.exec (q : Query) (db : List Game) : List Game :=
  let rows := db.filter q.passes
  let rows :=
    if q.rev_chron then
      List.insertionSort (fun a b : Game => b.datetime ≤ a.datetime) rows
    else rows
  match q.lim with
  | some n => rows.take n
  | none   => rows

/-- `AnlyStats` (analysis.py). -/
structure AnlyStats where
  games       : List Game
  wins        : List Game
  losses      : List Game
  ties        : List Game
  ats_wins    : List Game
  pts_for     : Int
  pts_against : Int
  yds_for     : Int
  yds_against : Int
  tos_for     : Int
  tos_against : Int
deriving DecidableEq

def AnlyStats.num_games (s : AnlyStats) : Nat := s.games.length

def AnlyStats.num_wins (s : AnlyStats) : Nat := s.wins.length

def AnlyStats.num_losses (s : AnlyStats) : Nat := s.losses.length

def AnlyStats.num_ties (s : AnlyStats) : Nat := s.ties.length

def AnlyStats.num_ats_wins (s : AnlyStats) : Nat := s.ats_wins.length

/-- The classification loop of `Analysis.compute_stats`: bucket each retrieved
game and accumulate the for/against stat counters.  Games are processed in
list order and appended to the buckets, so buckets keep the retrieval order. -/
def classify_games (t : Team) : List Game → AnlyStats
  | [] => ⟨[], [], [], [], [], 0, 0, 0, 0, 0, 0⟩
  | g :: rest =>
    let s := classify_games t rest
    let is_home := g.home_team.code == t.code
    let wins   := if !g.tied && g.winner_is t then g :: s.wins else s.wins
    let losses := if !g.tied && !g.winner_is t then g :: s.losses else s.losses
    let ties   := if g.tied then g :: s.ties else s.ties
    let ats_wins :=
      match g.pt_spread with
      | none => s.ats_wins
      | some sp =>
        let hvs := g.home_pts + sp - g.away_pts
        if is_home && hvs > 0 then g :: s.ats_wins
        else if !is_home && -hvs > 0 then g :: s.ats_wins
        else s.ats_wins
    let my_pts  := if is_home then g.home_pts else g.away_pts
    let my_yds  := if is_home then g.home_yds else g.away_yds
    let my_tos  := if is_home then g.home_tos else g.away_tos
    let opp_pts := if is_home then g.away_pts else g.home_pts
    let opp_yds := if is_home then g.away_yds else g.home_yds
    let opp_tos := if is_home then g.away_tos else g.home_tos
    ⟨g :: s.games, wins, losses, ties, ats_wins,
     my_pts + s.pts_for, opp_pts + s.pts_against,
     my_yds + s.yds_for, opp_yds + s.yds_against,
     my_tos + s.tos_for, opp_tos + s.tos_against⟩

/-- Lookup in an insertion-ordered association list (Python `dict` access). -/
def alookup {κ β : Type} [BEq κ] : List (κ × β) → κ → Option β
  | [], _ => none
  | (k, v) :: rest, k' => if k == k' then some v else alookup rest k'

/-- In-place update of an existing key (Python `d[k] = v` for a present key):
first matching entry is replaced, order preserved. -/
def aset {κ β : Type} [BEq κ] (k : κ) (v : β) : List (κ × β) → List (κ × β)
  | [] => []
  | (k', v') :: rest => if k' == k then (k', v) :: rest else (k', v') :: aset k v rest

/-- Insert-or-update (the Python `if k not in d: d[k] = dflt` / `d[k] op=`
idiom): the first matching entry is updated in place, a missing key is
appended at the end. -/
def aupd {κ β : Type} [BEq κ] (k : κ) (f : Option β → β) : List (κ × β) → List (κ × β)
  | [] => [(k, f none)]
  | (k', v') :: rest => if k' == k then (k', f (some v')) :: rest else (k', v') :: aupd k f rest

/-- Errors raised by the analysis interface: `LogicError` (core.py) and a
Python `KeyError` from indexing a team that is not in the game context. -/
inductive Err where
  | logic
  | key
deriving DecidableEq

/-- `Analysis` (analysis.py): per-team filter chains, per-team cached stats,
and the freeze flag. -/
structure Analysis where
  game_ctx     : GameCtx
  team_filters : List (String × List AnlyFilter)
  team_stats   : List (String × Option AnlyStats)
  frozen       : Bool
deriving DecidableEq

/-- The unconditional body of `add_filter`: append the filter to every team's
chain (used by the constructor, where the freeze check cannot fire). -/
def Analysis.add_filter_raw (a : Analysis) (f : AnlyFilter) : Analysis :=
  { a with team_filters := a.team_filters.map (fun e => (e.1, e.2 ++ [f])) }

/-- `Analysis.add_filter` for the single-filter variant: refuse non-framework
filters once frozen, otherwise append the filter for both teams. -/
def Analysis.add_filter (a : Analysis) (f : AnlyFilter) : Except Err Analysis :=
  if a.frozen && !f.framework then .error .logic
  else .ok (a.add_filter_raw f)

/-- `Analysis.add_team_filter`: process the map entries in order; the freeze
check precedes the indexing, and indexing a team outside the game context is
a `KeyError`. -/
def Analysis.add_team_filter (a : Analysis) : List (Team × AnlyFilter) → Except Err Analysis
  | [] => .ok a
  | (t, f) :: rest =>
    if a.frozen && !f.framework then .error .logic
    else if a.team_filters.any (fun e => e.1 == t.code) then
      (Analysis.add_team_filter
        { a with team_filters :=
            a.team_filters.map (fun e => if e.1 == t.code then (e.1, e.2 ++ [f]) else e) }
        rest)
    else .error .key

/-- `Analysis.__init__`: empty chains and stats for the two context teams,
then the two framework filters are injected via `add_filter` (which cannot
fail on an unfrozen instance). -/
def Analysis.init (ctx : GameCtx) : Analysis :=
  let teams := (List.cons ctx.home_team.code
    (if ctx.home_team.code == ctx.away_team.code then [] else [ctx.away_team.code]))
  let base : Analysis :=
    ⟨ctx, teams.map (fun t => (t, [])), teams.map (fun t => (t, none)), false⟩
  (base.add_filter_raw .timeframe).add_filter_raw .revChron

/-- The team-scope fallback at the start of `compute_stats`: for each team
whose chain has no team-scope filter, `_AnlyFilterSelf` is appended (via
`add_team_filter`, which always admits this framework filter). -/
def Analysis.inject_self (a : Analysis) : Analysis :=
  { a with team_filters :=
      a.team_filters.map (fun e =>
        if e.2.any AnlyFilter.team_scope then e else (e.1, e.2 ++ [.selfScope])) }

/-- `list.sort(key=lambda f: f.type.value)`: Python's sort is stable, as is
insertion sort. -/
def sort_filters (fs : List AnlyFilter) : List AnlyFilter :=
  List.insertionSort (fun f g => f.type.value ≤ g.type.value) fs

/-- `Analysis.compute_stats`: inject the team-scope fallback, sort the
analysed team's chain in place, fold the filters over `Game.select()`,
execute, and classify.  Returns the stats together with the mutated
instance; `none` models the `KeyError` for a team outside the context. -/
def Analysis.compute_stats (a : Analysis) (anly_team : Team) (db : List Game) :
    Option (AnlyStats × Analysis) :=
  let a := a.inject_self
  match alookup a.team_filters anly_team.code with
  | none => none
  | some fs =>
    let fs := sort_filters fs
    let a := { a with team_filters := aset anly_team.code fs a.team_filters }
    let q := fs.foldl (fun q f => f.apply a.game_ctx anly_team q) Query.init
    let games := q.exec db
    some (classify_games anly_team games, a)

/-- `Analysis.get_stats`: unknown team is a `LogicError`; a cached result is
returned as is (an `AnlyStats` tuple is always truthy); otherwise freeze the
instance, compute, cache, return. -/
def Analysis.get_stats (a : Analysis) (team : Team) (db : List Game) :
    Except Err (AnlyStats × Analysis) :=
  match alookup a.team_stats team.code with
  | none => .error .logic
  | some (some s) => .ok (s, a)
  | some none =>
    let a := { a with frozen := true }
    match a.compute_stats team db with
    | none => .error .key
    | some (s, a') => .ok (s, { a' with team_stats := aset team.code (some s) a'.team_stats })

/-- The analysis states reachable through the public interface: construction
followed by any sequence of successful filter additions and stats requests.
Callers have no operation that removes a filter. -/
inductive Reachable (ctx : GameCtx) : Analysis → Prop where
  | init : Reachable ctx (Analysis.init ctx)
  | add_filter {a a' : Analysis} {f : AnlyFilter} :
      Reachable ctx a → a.add_filter f = .ok a' → Reachable ctx a'
  | add_team_filter {a a' : Analysis} {tf : List (Team × AnlyFilter)} :
      Reachable ctx a → a.add_team_filter tf = .ok a' → Reachable ctx a'
  | get_stats {a a' : Analysis} {t : Team} {db : List Game} {s : AnlyStats} :
      Reachable ctx a → a.get_stats t db = .ok (s, a') → Reachable ctx a'

/-- Swamis are identified by their (unique) name. -/
abbrev Swami := String

/-- The `Scores` alias of pool.py: the list `[su_score, ats_score]`. -/
abbrev Scores := Score × Score

/-- Python `scores[score_idx]` with `score_idx` a `SubPoolType` value
(SU = 0, ATS = 1). -/
def score_at (sc : Scores) (score_idx : Nat) : Score :=
  if score_idx = 0 then sc.1 else sc.2

/-- The three accumulation maps populated by `Pool.compute_results`. -/
structure PoolState where
  week_scores  : List (Int × List (Swami × Scores))
  swami_scores : List (Swami × List (Int × Scores))
  tot_scores   : List (Swami × Scores)
deriving DecidableEq

def PoolState.empty : PoolState := ⟨[], [], []⟩

/-- One pick's contribution: the SU score is always merged; the ATS score is
merged only when non-empty. -/
def merge_scores (cur : Scores) (sc : Scores) : Scores :=
  (cur.1.add sc.1, if sc.2.is_empty then cur.2 else cur.2.add sc.2)

/-- The body of the inner loop of `compute_results` for one
`(game, swami, pick)` triple: initialise missing entries and accumulate into
the three maps. -/
def proc_pick (game : Game) (st : PoolState) (sw : Swami) (pick : Pick) : PoolState :=
  let week := game.week
  let scores := compute_scores game pick
  { week_scores :=
      aupd week (fun o => aupd sw (fun o2 => merge_scores (o2.getD init_scores) scores)
                               (o.getD [])) st.week_scores,
    swami_scores :=
      aupd sw (fun o => aupd week (fun o2 => merge_scores (o2.getD init_scores) scores)
                             (o.getD [])) st.swami_scores,
    tot_scores :=
      aupd sw (fun o => merge_scores (o.getD init_scores) scores) st.tot_scores }

/-- The body of the outer loop of `compute_results` for one game: the week's
entry in `week_scores` is created up front (even when the game has no picks),
then every (swami, pick) pair is processed. -/
def proc_game (st : PoolState) (gp : Game × List (Swami × Pick)) : PoolState :=
  let st := { st with week_scores := aupd gp.1.week (fun o => o.getD []) st.week_scores }
  gp.2.foldl (fun st swp => proc_pick gp.1 st swp.1 swp.2) st

/-- `Pool.compute_results` (pool.py): fold the scoring engine over every
`(game, swami, pick)` triple of `game_picks`. -/
def compute_results (game_picks : List (Game × List (Swami × Pick))) : PoolState :=
  game_picks.foldl proc_game PoolState.empty

/-- The sort key of `get_winner`: `s[1][score_idx][0]`, the win count of the
swami's season total for the chosen dimension. -/
def wins_at (score_idx : Nat) (s : Swami × Scores) : Nat := (score_at s.2 score_idx).wins

/-- `SubPool.get_winner` (pool.py): sort season totals by win count
descending (Python's `sorted` with key `-wins` is stable), take the first
`groupby` group, and return it if its win count is positive, else `[None]`.
Raises a `LogicError` when results have not been computed. -/
def get_winner (tot_scores : List (Swami × Scores)) (score_idx : Nat) :
    Except Err (List (Option Swami)) :=
  if tot_scores.isEmpty then .error .logic
  else
    match List.insertionSort
        (fun a b => wins_at score_idx b ≤ wins_at score_idx a) tot_scores with
    | [] => .error .logic
    | h :: t =>
      let w := wins_at score_idx h
      let grp := (h :: t).takeWhile (fun s => wins_at score_idx s == w)
      .ok (if 0 < w then grp.map (fun s => some s.1) else [none])

deriving instance DecidableEq for Except

/-- The highest win count among the season totals (0 for an empty map). -/
def max_wins (tot : List (Swami × Scores)) (score_idx : Nat) : Nat :=
  (tot.map (wins_at score_idx)).foldr max 0

/-- Adding a list of filters through the unconditional body of `add_filter`
(the checked `add_filter` behaves identically on an unfrozen instance). -/
def add_all (a : Analysis) (fs : List AnlyFilter) : Analysis :=
  fs.foldl Analysis.add_filter_raw a

/-!  Concrete data used by witnesses and counterexamples. -/

def crd : Team := ⟨"CRD", "NFC", "NFC West"⟩

def sea : Team := ⟨"SEA", "NFC", "NFC West"⟩

def rav : Team := ⟨"RAV", "AFC", "AFC North"⟩

/-- A played pick'em game (point spread exactly 0): CRD (home) beats SEA
20-17, so CRD beats the spread. -/
def g_pickem : Game := ⟨2022, 2, 60, crd, sea, some 0, some crd, some false, 20, 300, 1, 17, 280, 2⟩

/-- An ATS pick of CRD on that game (margin 3). -/
def pick_pk : Pick := ⟨crd, some crd, 3, 40⟩

/-- A played tie game (20-20) with a 3-point home spread. -/
def g_tie : Game := ⟨2022, 1, 50, crd, sea, some (-3), some crd, some true, 20, 300, 1, 20, 280, 2⟩

/-- A game in the database that has not been played yet (outcome null). -/
def g_tbd : Game := ⟨2022, 3, 70, crd, sea, some (-3), none, none, 0, 0, 0, 0, 0, 0⟩

/-- A context game between CRD and SEA at time 100 in season 2022. -/
def ctx_w : GameCtx := ⟨2022, 100, crd, sea⟩

/-- A game later than the context game (must never be returned). -/
def g_future : Game := ⟨2022, 5, 200, crd, sea, none, some sea, some false, 10, 100, 0, 20, 200, 1⟩

def db_w : List Game := [g_tie, g_pickem, g_tbd, g_future]

/-- Season totals for a winner-determination witness: s1 and s2 share the top
SU win count. -/
def tot_w : List (Swami × Scores) :=
  [("s1", (⟨3, 1, 0⟩, ⟨1, 0, 0⟩)), ("s2", (⟨3, 0, 1⟩, ⟨2, 0, 0⟩)), ("s3", (⟨1, 3, 0⟩, ⟨0, 0, 0⟩))]

/-- A concrete first `get_stats` call on a fresh analysis. -/
def run_w : Except Err (AnlyStats × Analysis) := (Analysis.init ctx_w).get_stats crd db_w

/-- The stats returned by that call. -/
def stats_w : AnlyStats :=
  match run_w with
  | .ok r => r.1
  | .error _ => ⟨[], [], [], [], [], 0, 0, 0, 0, 0, 0⟩

/-- The analysis state after that call. -/
def anly_w : Analysis :=
  match run_w with
  | .ok r => r.2
  | .error _ => Analysis.init ctx_w

/-- A concrete `compute_stats` result on the fresh analysis. -/
def cs_r : AnlyStats × Analysis :=
  ((Analysis.init ctx_w).compute_stats crd db_w).getD
    (⟨[], [], [], [], [], 0, 0, 0, 0, 0, 0⟩, Analysis.init ctx_w)

/-- All scores a swami's picks obtain in a run, in processing order (the
scoring of `compute_results` restricted to one swami). -/
def pick_scores (gps : List (Game × List (Swami × Pick))) (sw : Swami) : List Scores :=
  gps.flatMap (fun gp => (gp.2.filter (fun x => x.1 == sw)).map (fun x => compute_scores gp.1 x.2))

/-- A swami's accumulated season totals (`tot_scores[swami]`), all-zero when
the swami never scored. -/
def tot_of (st : PoolState) (sw : Swami) : Scores :=
  (alookup st.tot_scores sw).getD init_scores

/-- A swami's accumulated scores for one week (`week_scores[week][swami]`),
all-zero when absent. -/
def week_of (st : PoolState) (w : Int) (sw : Swami) : Scores :=
  (alookup ((alookup st.week_scores w).getD []) sw).getD init_scores

/-!  Claim theorems. -/

/-- C2: `compute_scores` SU semantics.  A game without a recorded winner
yields two all-zero scores; a played tie yields an SU tie for every pick;
otherwise the SU score is a win exactly when the pick's winner matches the
game's winner and the predicted margin is strictly positive, and a matching
pick with zero margin is an SU loss. -/
theorem su_scoring_correct (g : Game) (p : Pick) :
    (g.winner = none → compute_scores g p = (Score.empty, Score.empty)) ∧
    (∀ w, g.winner = some w → g.tied = true → (compute_scores g p).1 = ⟨0, 0, 1⟩) ∧
    (∀ w, g.winner = some w → g.tied = false →
      (((compute_scores g p).1 = ⟨1, 0, 0⟩) ↔ (p.su_winner.code = w.code ∧ 0 < p.pts_margin)) ∧
      (p.su_winner.code = w.code → p.pts_margin = 0 → (compute_scores g p).1 = ⟨0, 1, 0⟩)) := by
  refine ⟨fun h => by simp [compute_scores, h], fun w hw ht => by simp [compute_scores, hw, ht, b2n], ?_⟩
  intro w hw ht
  constructor
  · by_cases hc : p.su_winner.code = w.code <;> by_cases hm : (0 : Int) < p.pts_margin <;>
      by_cases hz : p.pts_margin = 0 <;>
      simp [compute_scores, hw, ht, b2n, hc, hm, hz, Score.empty]
  · intro hc hz
    simp [compute_scores, hw, ht, b2n, hc, hz, Score.empty]

/-- C2 witness: evaluated on the concrete tie game and on the pick'em game
with a zero-margin matching pick. -/
theorem su_scoring_correct_witness :
    (compute_scores g_tie pick_pk).1 = ⟨0, 0, 1⟩ ∧
    (compute_scores g_pickem ⟨crd, none, 0, 40⟩).1 = ⟨0, 1, 0⟩ :=
  ⟨(su_scoring_correct g_tie pick_pk).2.1 crd (by decide) (by decide),
   ((su_scoring_correct g_pickem ⟨crd, none, 0, 40⟩).2.2 crd (by decide) (by decide)).2
     (by decide) (by decide)⟩

/-- C3: evaluation at the failing input.  `g_pickem` is a played game with a
point spread of exactly zero; it has a definite ATS winner (CRD, the home
side, beat the spread) and the pick names that very team as its ATS winner,
yet `compute_scores` returns the all-zero ATS score, because
`if game.pt_spread and pick.ats_winner` treats the 0.0 spread as "no
spread".  The claim requires a non-empty ATS score (here a win). -/
theorem pickem_ats_dropped :
    g_pickem.pt_spread = some 0 ∧
    g_pickem.winner = some crd ∧
    g_pickem.ats_winner = some crd ∧
    pick_pk.ats_winner = some crd ∧
    (compute_scores g_pickem pick_pk).2 = Score.empty := by decide

/-- C6: the season-count filter with `seasons = N` accepts exactly the games
whose season lies in the inclusive range `[Y - N + 1, Y]`, where `Y` is the
season of the enclosing game context. -/
theorem seasons_filter_range (ctx : GameCtx) (team : Team) (q : Query) (N : Int) (g : Game) :
    ((AnlyFilter.seasons N).apply ctx team q).passes g = true ↔
      (q.passes g = true ∧ (ctx.season - N + 1 ≤ g.season ∧ g.season ≤ ctx.season)) := by
  simp [AnlyFilter.apply, Query.passes, Cond.eval, List.all_append, and_assoc]

/-- C10: the classification loop of `compute_stats` partitions the retrieved
games: ties first, then wins by winner equality, the rest losses; the three
bucket sizes sum to the number of games; and `ats_wins` only contains
retrieved games carrying a point spread. -/
theorem classify_games_partition (t : Team) (games : List Game) :
    (classify_games t games).games = games ∧
    (classify_games t games).ties = games.filter (fun g => g.tied) ∧
    (classify_games t games).wins = games.filter (fun g => !g.tied && g.winner_is t) ∧
    (classify_games t games).losses = games.filter (fun g => !g.tied && !g.winner_is t) ∧
    (classify_games t games).num_wins + (classify_games t games).num_losses
      + (classify_games t games).num_ties = (classify_games t games).num_games ∧
    (∀ g ∈ (classify_games t games).ats_wins, g ∈ games ∧ g.pt_spread ≠ none) := by
  induction games with
  | nil => simp [classify_games, AnlyStats.num_wins, AnlyStats.num_losses, AnlyStats.num_ties,
      AnlyStats.num_games]
  | cons g rest ih =>
    obtain ⟨hg, htie, hwin, hloss, hsum, hats⟩ := ih
    refine ⟨?_, ?_, ?_, ?_, ?_, ?_⟩
    · simp [classify_games, hg]
    · by_cases h : g.tied <;> simp [classify_games, htie, h]
    · by_cases h : g.tied <;> by_cases h2 : g.winner_is t <;> simp [classify_games, hwin, h, h2]
    · by_cases h : g.tied <;> by_cases h2 : g.winner_is t <;> simp [classify_games, hloss, h, h2]
    · simp only [AnlyStats.num_wins, AnlyStats.num_losses, AnlyStats.num_ties,
        AnlyStats.num_games] at hsum ⊢
      by_cases h : g.tied <;> by_cases h2 : g.winner_is t <;>
        simp [classify_games, h, h2] <;> omega
    · intro x hx
      cases hsp : g.pt_spread with
      | none =>
        have hx' : x ∈ (classify_games t rest).ats_wins := by
          simpa [classify_games, hsp] using hx
        exact ⟨List.mem_cons_of_mem _ (hats x hx').1, (hats x hx').2⟩
      | some sp =>
        simp only [classify_games, hsp] at hx
        have : x = g ∨ x ∈ (classify_games t rest).ats_wins := by
          split at hx
          · exact List.mem_cons.mp hx
          · split at hx
            · exact List.mem_cons.mp hx
            · exact Or.inr hx
        rcases this with rfl | hx'
        · exact ⟨List.mem_cons_self _ _, by simp [hsp]⟩
        · exact ⟨List.mem_cons_of_mem _ (hats x hx').1, (hats x hx').2⟩

/-!  Stability lemmas for the descending-by-key insertion sort, used for the
winner determination.  Throughout, the relation is
`fun x y => key y ≤ key x` (descending order on a natural-number key),
which matches Python's stable `sorted(..., key=lambda s: -wins)`. -/

theorem orderedInsert_max_cons {α : Type} (key : α → Nat) (a : α) (l : List α)
    (h : ∀ x ∈ l, key x ≤ key a) :
    List.orderedInsert (fun x y => key y ≤ key x) a l = a :: l := by
  cases l with
  | nil => rfl
  | cons b t => simp [List.orderedInsert, h b (List.mem_cons_self b t)]

theorem takeWhile_orderedInsert_low {α : Type} (key : α → Nat) (m : Nat) (a : α) (l : List α)
    (ha : key a < m) :
    (List.orderedInsert (fun x y => key y ≤ key x) a l).takeWhile (fun x => key x == m)
      = l.takeWhile (fun x => key x == m) := by
  induction l with
  | nil => simp [List.orderedInsert, List.takeWhile_cons, Nat.ne_of_lt ha]
  | cons b t ih =>
    by_cases hr : key b ≤ key a
    · have hb : (key b == m) = false := by
        simp only [beq_eq_false_iff_ne, ne_eq]
        omega
      simp [List.orderedInsert, hr, List.takeWhile_cons, Nat.ne_of_lt ha, hb]
    · by_cases hb : key b == m <;>
        simp [List.orderedInsert, hr, List.takeWhile_cons, hb, ih]

theorem sort_le_of_mem {α : Type} (key : α → Nat) (l : List α) (x : α)
    (hx : x ∈ List.insertionSort (fun x y => key y ≤ key x) l) : x ∈ l :=
  (List.perm_insertionSort _ l).mem_iff.mp hx

theorem takeWhile_insertionSort_filter {α : Type} (key : α → Nat) (m : Nat) (l : List α)
    (hmax : ∀ x ∈ l, key x ≤ m) :
    (List.insertionSort (fun x y => key y ≤ key x) l).takeWhile (fun x => key x == m)
      = l.filter (fun x => key x == m) := by
  induction l with
  | nil => rfl
  | cons a t ih =>
    have hmax' : ∀ x ∈ t, key x ≤ m := fun x hx => hmax x (List.mem_cons_of_mem a hx)
    by_cases ha : key a = m
    · have hcons :
          List.insertionSort (fun x y => key y ≤ key x) (a :: t)
            = a :: List.insertionSort (fun x y => key y ≤ key x) t := by
        simpa [List.insertionSort] using
          orderedInsert_max_cons key a (List.insertionSort (fun x y => key y ≤ key x) t)
            (fun x hx => ha ▸ hmax' x (sort_le_of_mem key t x hx))
      rw [hcons, List.takeWhile_cons, List.filter_cons]
      simp [ha, ih hmax']
    · have ha' : key a < m := lt_of_le_of_ne (hmax a (List.mem_cons_self a t)) ha
      have : List.insertionSort (fun x y => key y ≤ key x) (a :: t)
          = List.orderedInsert (fun x y => key y ≤ key x) a
              (List.insertionSort (fun x y => key y ≤ key x) t) := rfl
      rw [this, takeWhile_orderedInsert_low key m a _ ha', ih hmax', List.filter_cons]
      simp [ha]

theorem le_max_wins (tot : List (Swami × Scores)) (idx : Nat) (s : Swami × Scores)
    (hs : s ∈ tot) : wins_at idx s ≤ max_wins tot idx := by
  induction tot with
  | nil => cases hs
  | cons a t ih =>
    rcases List.mem_cons.mp hs with rfl | hmem
    · simp only [max_wins, List.map, List.foldr]
      omega
    · have := ih hmem
      simp only [max_wins, List.map, List.foldr] at this ⊢
      omega

theorem max_wins_mem (tot : List (Swami × Scores)) (idx : Nat) (hne : tot ≠ []) :
    ∃ s ∈ tot, wins_at idx s = max_wins tot idx := by
  induction tot with
  | nil => cases hne rfl
  | cons a t ih =>
    by_cases ht : t = []
    · subst ht
      exact ⟨a, List.mem_cons_self a [], by simp [max_wins]⟩
    · obtain ⟨s, hs, hsv⟩ := ih ht
      by_cases hc : wins_at idx s ≤ wins_at idx a
      · refine ⟨a, List.mem_cons_self a t, ?_⟩
        have h1 := le_max_wins (a :: t) idx a (List.mem_cons_self a t)
        have h2 : max_wins (a :: t) idx = max (wins_at idx a) (max_wins t idx) := by
          simp [max_wins, List.foldr]
        omega
      · refine ⟨s, List.mem_cons_of_mem a hs, ?_⟩
        have h2 : max_wins (a :: t) idx = max (wins_at idx a) (max_wins t idx) := by
          simp [max_wins, List.foldr]
        omega

/-- C8: with season totals present, `get_winner` for a scoring dimension
returns exactly the swamis whose win count equals the highest win count,
in their original (insertion) order, provided that count is positive. -/
theorem get_winner_top_group (tot : List (Swami × Scores)) (idx : Nat)
    (hne : tot ≠ []) (_hidx : idx = 0 ∨ idx = 1) (hpos : 0 < max_wins tot idx) :
    get_winner tot idx =
      .ok ((tot.filter (fun s => wins_at idx s == max_wins tot idx)).map (fun s => some s.1)) := by
  unfold get_winner
  rw [if_neg (by simpa [List.isEmpty_iff] using hne)]
  cases hsrt : List.insertionSort (fun a b => wins_at idx b ≤ wins_at idx a) tot with
  | nil =>
    have hp := List.perm_insertionSort (fun a b => wins_at idx b ≤ wins_at idx a) tot
    rw [hsrt] at hp
    exact absurd hp.symm.eq_nil hne
  | cons h t =>
    have hmem : h ∈ tot := sort_le_of_mem (wins_at idx) tot h (by rw [hsrt]; exact List.mem_cons_self h t)
    have hmax : wins_at idx h = max_wins tot idx := by
      -- the head of the descending sort attains the maximum
      obtain ⟨s, hs, hsv⟩ := max_wins_mem tot idx hne
      have hsorted : List.Sorted (fun x y => wins_at idx y ≤ wins_at idx x)
          (List.insertionSort (fun x y => wins_at idx y ≤ wins_at idx x) tot) := by
        refine @List.sorted_insertionSort _ _ _ ⟨fun a b => ?_⟩ ⟨fun a b c hab hbc => ?_⟩ tot
        · omega
        · omega
      rw [hsrt] at hsorted
      have hs' : s ∈ h :: t := by
        rw [← hsrt]
        exact (List.perm_insertionSort _ tot).symm.mem_iff.mp hs
      have hle := le_max_wins tot idx h hmem
      rcases List.mem_cons.mp hs' with rfl | hst
      · omega
      · have := (List.sorted_cons.mp hsorted).1 s hst
        omega
    have htake :
        (h :: t).takeWhile (fun s => wins_at idx s == wins_at idx h)
          = tot.filter (fun s => wins_at idx s == max_wins tot idx) := by
      rw [hmax, ← hsrt]
      exact takeWhile_insertionSort_filter (wins_at idx) (max_wins tot idx) tot
        (le_max_wins tot idx)
    dsimp only
    rw [htake, hmax, if_pos hpos]

/-- C8 witness: on the concrete season totals, s1 and s2 are tied at the top
SU win count and both are returned, in insertion order. -/
theorem get_winner_top_group_witness :
    get_winner tot_w 0 = .ok [some "s1", some "s2"] := by
  have := get_winner_top_group tot_w 0 (by decide) (Or.inl rfl) (by decide)
  simpa using this

/-!  Association-list lemmas (Python dict semantics). -/

theorem alookup_aset_eq {κ β : Type} [BEq κ] (l : List (κ × β)) (k : κ) (v : β)
    (h : (alookup l k).isSome) : alookup (aset k v l) k = some v := by
  induction l with
  | nil => simp [alookup] at h
  | cons e rest ih =>
    by_cases hk : e.1 == k
    · simp [aset, alookup, hk]
    · simp only [alookup, aset, hk, if_false, Bool.false_eq_true] at h ⊢
      exact ih h

theorem alookup_mem {κ β : Type} [BEq κ] [LawfulBEq κ] (l : List (κ × β)) (k : κ) (v : β)
    (h : alookup l k = some v) : (k, v) ∈ l := by
  induction l with
  | nil => simp [alookup] at h
  | cons e rest ih =>
    by_cases hk : e.1 == k
    · simp only [alookup, hk, if_true, Option.some_inj] at h
      have : e = (k, v) := by
        cases e
        simp only [Prod.mk.injEq]
        exact ⟨by simpa using hk, h⟩
      exact this ▸ List.mem_cons_self _ _
    · simp only [alookup, hk, Bool.false_eq_true, if_false] at h
      exact List.mem_cons_of_mem _ (ih h)

/-- `compute_stats` mutates only the filter chains: context, cached stats and
the freeze flag of the returned instance are those of the receiver. -/
theorem compute_stats_preserves (a : Analysis) (t : Team) (db : List Game)
    (r : AnlyStats × Analysis) (h : a.compute_stats t db = some r) :
    r.2.team_stats = a.team_stats ∧ r.2.game_ctx = a.game_ctx ∧ r.2.frozen = a.frozen := by
  unfold Analysis.compute_stats at h
  cases hl : alookup a.inject_self.team_filters t.code with
  | none =>
    simp only [hl] at h
    exact Option.noConfusion h
  | some fs =>
    simp only [hl, Option.some_inj] at h
    rw [← h]
    simp [Analysis.inject_self]

/-- A successful `get_stats` call leaves the returned stats in the team's
cache slot of the returned instance. -/
theorem get_stats_ok_cache (a : Analysis) (team : Team) (db : List Game)
    (s : AnlyStats) (a₁ : Analysis)
    (h : a.get_stats team db = .ok (s, a₁)) :
    alookup a₁.team_stats team.code = some (some s) := by
  unfold Analysis.get_stats at h
  cases hl : alookup a.team_stats team.code with
  | none =>
    simp only [hl] at h
    exact Except.noConfusion h
  | some o =>
    cases o with
    | some s0 =>
      simp only [hl, Except.ok.injEq, Prod.mk.injEq] at h
      obtain ⟨hs, ha⟩ := h
      subst hs; subst ha
      exact hl
    | none =>
      simp only [hl] at h
      cases hc : ({a with frozen := true} : Analysis).compute_stats team db with
      | none =>
        simp only [hc] at h
        exact Except.noConfusion h
      | some r =>
        simp only [hc] at h
        obtain ⟨rs, ra⟩ := r
        simp only [Except.ok.injEq, Prod.mk.injEq] at h
        obtain ⟨hs, ha⟩ := h
        subst hs
        subst ha
        have hsome : (alookup ra.team_stats team.code).isSome := by
          rw [(compute_stats_preserves _ team db (rs, ra) hc).1, hl]; rfl
        exact alookup_aset_eq _ _ _ hsome

/-- C9: a second `get_stats` call for the same team returns the identical
cached result and leaves the instance unchanged, regardless of the state of
the game repository at the time of the second call (no re-query). -/
theorem get_stats_cached (a : Analysis) (team : Team) (db db' : List Game)
    (s : AnlyStats) (a₁ : Analysis)
    (h : a.get_stats team db = .ok (s, a₁)) :
    a₁.get_stats team db' = .ok (s, a₁) := by
  unfold Analysis.get_stats
  rw [get_stats_ok_cache a team db s a₁ h]

/-- C9 witness: after a first call on the concrete context and repository,
a second call against a different (empty) repository returns the same
cached stats and state. -/
theorem get_stats_cached_witness :
    anly_w.get_stats crd [] = .ok (stats_w, anly_w) :=
  get_stats_cached (Analysis.init ctx_w) crd db_w [] stats_w anly_w (by rfl)

/-- `add_team_filter` only appends to filter chains: cached stats, freeze
flag and context are untouched on success. -/
theorem add_team_filter_preserves (tf : List (Team × AnlyFilter)) :
    ∀ (a a' : Analysis), a.add_team_filter tf = .ok a' →
      a'.team_stats = a.team_stats ∧ a'.frozen = a.frozen ∧ a'.game_ctx = a.game_ctx := by
  induction tf with
  | nil =>
    intro a a' h
    simp only [Analysis.add_team_filter, Except.ok.injEq] at h
    subst h
    exact ⟨rfl, rfl, rfl⟩
  | cons e rest ih =>
    intro a a' h
    obtain ⟨t, f⟩ := e
    unfold Analysis.add_team_filter at h
    split at h
    · exact Except.noConfusion h
    · split at h
      · obtain ⟨h1, h2, h3⟩ := ih _ _ h
        exact ⟨h1, h2, h3⟩
      · exact Except.noConfusion h

/-- Invariant of reachable analysis states: as soon as any team's stats slot
is populated, the instance is frozen. -/
theorem reachable_cached_frozen (ctx : GameCtx) (a : Analysis) (h : Reachable ctx a) :
    ∀ e ∈ a.team_stats, e.2.isSome = true → a.frozen = true := by
  induction h with
  | init =>
    intro e he hsome
    simp only [Analysis.init, Analysis.add_filter_raw] at he
    obtain ⟨t, ht, rfl⟩ := List.mem_map.mp he
    simp at hsome
  | add_filter hr hok ih =>
    intro e he hsome
    unfold Analysis.add_filter at hok
    split at hok
    · exact Except.noConfusion hok
    · have hh := Except.ok.inj hok
      subst hh
      simp only [Analysis.add_filter_raw] at he ⊢
      exact ih e he hsome
  | add_team_filter hr hok ih =>
    intro e he hsome
    obtain ⟨hts, hfz, _⟩ := add_team_filter_preserves _ _ _ hok
    rw [hfz]
    exact ih e (hts ▸ he) hsome
  | @get_stats a a' t db s hr hok ih =>
    intro e he hsome
    unfold Analysis.get_stats at hok
    cases hl : alookup a.team_stats t.code with
    | none =>
      simp only [hl] at hok
      exact Except.noConfusion hok
    | some o =>
      cases o with
      | some s0 =>
        simp only [hl, Except.ok.injEq, Prod.mk.injEq] at hok
        obtain ⟨hs, ha⟩ := hok
        subst ha
        exact ih e he hsome
      | none =>
        simp only [hl] at hok
        cases hc : ({a with frozen := true} : Analysis).compute_stats t db with
        | none =>
          simp only [hc] at hok
          exact Except.noConfusion hok
        | some r =>
          simp only [hc] at hok
          obtain ⟨rs, ra⟩ := r
          simp only [Except.ok.injEq, Prod.mk.injEq] at hok
          obtain ⟨hs, ha⟩ := hok
          subst ha
          have : ra.frozen = true := (compute_stats_preserves _ t db (rs, ra) hc).2.2
          simpa using this

/-- C7: once `get_stats` has succeeded on a reachable analysis, adding any
non-framework filter -- uniformly or through a per-team map -- raises
`LogicError` for either team, while the framework filters are still accepted
after the freeze. -/
theorem frozen_rejects_filters (ctx : GameCtx) (a : Analysis) (team : Team) (db : List Game)
    (s : AnlyStats) (a₁ : Analysis)
    (hr : Reachable ctx a) (h : a.get_stats team db = .ok (s, a₁)) :
    (∀ f, f.framework = false → a₁.add_filter f = .error .logic) ∧
    (∀ (t : Team) (f : AnlyFilter) (rest : List (Team × AnlyFilter)), f.framework = false →
      a₁.add_team_filter ((t, f) :: rest) = .error .logic) ∧
    (∀ f, f.framework = true → a₁.add_filter f = .ok (a₁.add_filter_raw f)) := by
  have hfz : a₁.frozen = true := by
    have hcache := get_stats_ok_cache a team db s a₁ h
    have hmem := alookup_mem _ _ _ hcache
    exact reachable_cached_frozen ctx a₁ (Reachable.get_stats hr h)
      (team.code, some s) hmem rfl
  refine ⟨?_, ?_, ?_⟩
  · intro f hf
    simp [Analysis.add_filter, hfz, hf]
  · intro t f rest hf
    unfold Analysis.add_team_filter
    simp [hfz, hf]
  · intro f hf
    simp [Analysis.add_filter, hfz, hf]

/-- C7 witness: after the concrete first `get_stats` call, a uniform
opponent filter and a per-team opponent filter are both rejected, while the
framework team-scope filter is still accepted. -/
theorem frozen_rejects_filters_witness :
    anly_w.add_filter (.games 5) = .error .logic ∧
    anly_w.add_team_filter [(sea, .team crd)] = .error .logic ∧
    anly_w.add_filter .selfScope = .ok (anly_w.add_filter_raw .selfScope) :=
  ⟨(frozen_rejects_filters ctx_w _ crd db_w stats_w anly_w Reachable.init rfl).1 _ rfl,
   (frozen_rejects_filters ctx_w _ crd db_w stats_w anly_w Reachable.init rfl).2.1
     sea (.team crd) [] rfl,
   (frozen_rejects_filters ctx_w _ crd db_w stats_w anly_w Reachable.init rfl).2.2
     .selfScope rfl⟩

/-!  The no-look-ahead invariant (C1).  Filters only ever extend the query:
conditions accumulate, and execution returns only rows passing all of them. -/

theorem apply_conds_mono (f : AnlyFilter) (ctxq : GameCtx) (t : Team) (q : Query)
    (c : Cond) (hc : c ∈ q.conds) : c ∈ (f.apply ctxq t q).conds := by
  cases f <;> simp [AnlyFilter.apply, hc]

theorem fold_conds_mono (ctxq : GameCtx) (t : Team) (fs : List AnlyFilter) (q : Query)
    (c : Cond) (hc : c ∈ q.conds) :
    c ∈ (fs.foldl (fun q f => f.apply ctxq t q) q).conds := by
  induction fs generalizing q with
  | nil => exact hc
  | cons f rest ih => exact ih _ (apply_conds_mono f ctxq t q c hc)

theorem timeframe_cond_mem (ctxq : GameCtx) (t : Team) (fs : List AnlyFilter) (q : Query)
    (hf : AnlyFilter.timeframe ∈ fs) :
    Cond.beforeDT ctxq.datetime ∈ (fs.foldl (fun q f => f.apply ctxq t q) q).conds := by
  induction fs generalizing q with
  | nil => cases hf
  | cons f rest ih =>
    rcases List.mem_cons.mp hf with rfl | hmem
    · exact fold_conds_mono ctxq t rest _ _ (by simp [AnlyFilter.apply])
    · exact ih (f.apply ctxq t q) hmem

theorem exec_mem_passes (q : Query) (db : List Game) (g : Game) (hg : g ∈ q.exec db) :
    q.passes g = true := by
  unfold Query.exec at hg
  have h1 : g ∈ (if q.rev_chron then
      List.insertionSort (fun a b : Game => b.datetime ≤ a.datetime) (db.filter q.passes)
    else db.filter q.passes) := by
    cases hq : q.lim with
    | none => simpa [hq] using hg
    | some n =>
      rw [hq] at hg
      exact List.take_subset n _ hg
  have h2 : g ∈ db.filter q.passes := by
    by_cases hrc : q.rev_chron
    · rw [if_pos hrc] at h1
      exact (List.perm_insertionSort _ _).mem_iff.mp h1
    · rwa [if_neg hrc] at h1
  exact List.of_mem_filter h2

theorem passes_cond (q : Query) (g : Game) (c : Cond) (hc : c ∈ q.conds)
    (hp : q.passes g = true) : c.eval g = true := by
  unfold Query.passes at hp
  exact List.all_eq_true.mp hp c hc

/-!  Filter chains only grow through the public interface. -/

theorem aset_mem {κ β : Type} [BEq κ] (k : κ) (v : β) (l : List (κ × β)) (e : κ × β)
    (he : e ∈ aset k v l) : e.2 = v ∨ e ∈ l := by
  induction l with
  | nil => cases he
  | cons x rest ih =>
    unfold aset at he
    split at he
    · rcases List.mem_cons.mp he with rfl | h
      · exact Or.inl rfl
      · exact Or.inr (List.mem_cons_of_mem _ h)
    · rcases List.mem_cons.mp he with rfl | h
      · exact Or.inr (List.mem_cons_self _ _)
      · rcases ih h with h' | h'
        · exact Or.inl h'
        · exact Or.inr (List.mem_cons_of_mem _ h')

theorem inject_self_keeps (a : Analysis) (x : AnlyFilter)
    (hx : ∀ e ∈ a.team_filters, x ∈ e.2) :
    ∀ e ∈ a.inject_self.team_filters, x ∈ e.2 := by
  intro e he
  simp only [Analysis.inject_self] at he
  obtain ⟨e0, he0, heq⟩ := List.mem_map.mp he
  by_cases hsc : e0.2.any AnlyFilter.team_scope = true
  · rw [if_pos hsc] at heq
    exact heq ▸ hx e0 he0
  · rw [if_neg hsc] at heq
    rw [← heq]
    exact List.mem_append_left _ (hx e0 he0)

theorem compute_stats_keeps (a : Analysis) (t : Team) (db : List Game)
    (r : AnlyStats × Analysis) (hc : a.compute_stats t db = some r) (x : AnlyFilter)
    (hx : ∀ e ∈ a.team_filters, x ∈ e.2) :
    ∀ e ∈ r.2.team_filters, x ∈ e.2 := by
  unfold Analysis.compute_stats at hc
  cases hl : alookup a.inject_self.team_filters t.code with
  | none =>
    simp only [hl] at hc
    exact Option.noConfusion hc
  | some fs =>
    simp only [hl, Option.some_inj] at hc
    have hinj := inject_self_keeps a x hx
    have hfs : x ∈ fs := (hinj _ (alookup_mem _ _ _ hl) : x ∈ fs)
    have hsort : x ∈ sort_filters fs := (List.perm_insertionSort _ fs).symm.mem_iff.mp hfs
    intro e he
    rw [← hc] at he
    simp only at he
    rcases aset_mem _ _ _ _ he with h | h
    · rw [h]; exact hsort
    · exact hinj e h

theorem add_team_filter_keeps (x : AnlyFilter) (tf : List (Team × AnlyFilter)) :
    ∀ (a a' : Analysis), a.add_team_filter tf = .ok a' →
      (∀ e ∈ a.team_filters, x ∈ e.2) → ∀ e ∈ a'.team_filters, x ∈ e.2 := by
  induction tf with
  | nil =>
    intro a a' h hx
    simp only [Analysis.add_team_filter, Except.ok.injEq] at h
    exact h ▸ hx
  | cons e0 rest ih =>
    intro a a' h hx
    obtain ⟨t, f⟩ := e0
    unfold Analysis.add_team_filter at h
    split at h
    · exact Except.noConfusion h
    · split at h
      · refine ih _ _ h ?_
        intro e he
        simp only at he
        obtain ⟨e1, he1, heq⟩ := List.mem_map.mp he
        by_cases hk : (e1.1 == t.code) = true
        · rw [if_pos hk] at heq
          rw [← heq]
          exact List.mem_append_left _ (hx e1 he1)
        · rw [if_neg hk] at heq
          exact heq ▸ hx e1 he1
      · exact Except.noConfusion h

theorem get_stats_keeps (a : Analysis) (t : Team) (db : List Game) (s : AnlyStats)
    (a₁ : Analysis) (h : a.get_stats t db = .ok (s, a₁)) (x : AnlyFilter)
    (hx : ∀ e ∈ a.team_filters, x ∈ e.2) :
    ∀ e ∈ a₁.team_filters, x ∈ e.2 := by
  unfold Analysis.get_stats at h
  cases hl : alookup a.team_stats t.code with
  | none =>
    simp only [hl] at h
    exact Except.noConfusion h
  | some o =>
    cases o with
    | some s0 =>
      simp only [hl, Except.ok.injEq, Prod.mk.injEq] at h
      exact h.2 ▸ hx
    | none =>
      simp only [hl] at h
      cases hc : ({a with frozen := true} : Analysis).compute_stats t db with
      | none =>
        simp only [hc] at h
        exact Except.noConfusion h
      | some r =>
        simp only [hc] at h
        obtain ⟨rs, ra⟩ := r
        simp only [Except.ok.injEq, Prod.mk.injEq] at h
        rw [← h.2]
        exact compute_stats_keeps _ t db (rs, ra) hc x hx

theorem init_filters (ctx : GameCtx) :
    ∀ e ∈ (Analysis.init ctx).team_filters, e.2 = [AnlyFilter.timeframe, AnlyFilter.revChron] := by
  intro e he
  simp only [Analysis.init, Analysis.add_filter_raw, List.map_map] at he
  obtain ⟨t, ht, rfl⟩ := List.mem_map.mp he
  rfl

theorem reachable_keeps (ctx : GameCtx) (a : Analysis) (h : Reachable ctx a) (x : AnlyFilter)
    (hinit : ∀ e ∈ (Analysis.init ctx).team_filters, x ∈ e.2) :
    ∀ e ∈ a.team_filters, x ∈ e.2 := by
  induction h with
  | init => exact hinit
  | add_filter hr hok ih =>
    unfold Analysis.add_filter at hok
    split at hok
    · exact Except.noConfusion hok
    · have hh := Except.ok.inj hok
      rw [← hh]
      intro e he
      simp only [Analysis.add_filter_raw] at he
      obtain ⟨e0, he0, rfl⟩ := List.mem_map.mp he
      exact List.mem_append_left _ (ih e0 he0)
  | add_team_filter hr hok ih =>
    exact add_team_filter_keeps x _ _ _ hok ih
  | get_stats hr hok ih =>
    exact get_stats_keeps _ _ _ _ _ hok x ih

theorem reachable_game_ctx (ctx : GameCtx) (a : Analysis) (h : Reachable ctx a) :
    a.game_ctx = ctx := by
  induction h with
  | init => rfl
  | add_filter hr hok ih =>
    unfold Analysis.add_filter at hok
    split at hok
    · exact Except.noConfusion hok
    · have hh := Except.ok.inj hok
      rw [← hh]
      exact ih
  | add_team_filter hr hok ih =>
    rw [(add_team_filter_preserves _ _ _ hok).2.2]
    exact ih
  | @get_stats a a' t db s hr hok ih =>
    unfold Analysis.get_stats at hok
    cases hl : alookup a.team_stats t.code with
    | none =>
      simp only [hl] at hok
      exact Except.noConfusion hok
    | some o =>
      cases o with
      | some s0 =>
        simp only [hl, Except.ok.injEq, Prod.mk.injEq] at hok
        rw [← hok.2]
        exact ih
      | none =>
        simp only [hl] at hok
        cases hc : ({a with frozen := true} : Analysis).compute_stats t db with
        | none =>
          simp only [hc] at hok
          exact Except.noConfusion hok
        | some r =>
          simp only [hc] at hok
          obtain ⟨rs, ra⟩ := r
          simp only [Except.ok.injEq, Prod.mk.injEq] at hok
          rw [← hok.2]
          have := (compute_stats_preserves _ t db (rs, ra) hc).2.1
          simpa using this.trans ih

theorem classify_games_games (t : Team) (l : List Game) : (classify_games t l).games = l := by
  induction l with
  | nil => rfl
  | cons g rest ih => simp [classify_games, ih]

/-- C1: on every analysis reachable through the public interface, both
framework filters (the strict timeframe and the reverse-chronological
ordering) are present in both teams' chains -- callers cannot remove them --
and every game returned by `compute_stats`, for either team, kicked off
strictly before the context game. -/
theorem no_look_ahead (ctx : GameCtx) (a : Analysis) (team : Team) (db : List Game)
    (r : AnlyStats × Analysis) (hr : Reachable ctx a)
    (hc : a.compute_stats team db = some r) :
    (∀ e ∈ a.team_filters, AnlyFilter.timeframe ∈ e.2 ∧ AnlyFilter.revChron ∈ e.2) ∧
    (∀ g ∈ r.1.games, g.datetime < ctx.datetime) := by
  have htf : ∀ e ∈ a.team_filters, AnlyFilter.timeframe ∈ e.2 :=
    reachable_keeps ctx a hr _ (fun e he => by rw [init_filters ctx e he]; simp)
  have hrc : ∀ e ∈ a.team_filters, AnlyFilter.revChron ∈ e.2 :=
    reachable_keeps ctx a hr _ (fun e he => by rw [init_filters ctx e he]; simp)
  refine ⟨fun e he => ⟨htf e he, hrc e he⟩, ?_⟩
  have hctx : a.game_ctx = ctx := reachable_game_ctx ctx a hr
  unfold Analysis.compute_stats at hc
  cases hl : alookup a.inject_self.team_filters team.code with
  | none =>
    simp only [hl] at hc
    exact Option.noConfusion hc
  | some fs =>
    simp only [hl, Option.some_inj] at hc
    intro g hg
    have hgames : g ∈ (((sort_filters fs).foldl
        (fun q f => f.apply a.inject_self.game_ctx team q) Query.init).exec db) := by
      rw [← hc] at hg
      simp only at hg
      rwa [classify_games_games] at hg
    have hfs : AnlyFilter.timeframe ∈ fs :=
      inject_self_keeps a _ htf _ (alookup_mem _ _ _ hl)
    have hsort : AnlyFilter.timeframe ∈ sort_filters fs :=
      (List.perm_insertionSort _ fs).symm.mem_iff.mp hfs
    have hcond : Cond.beforeDT a.inject_self.game_ctx.datetime ∈
        (((sort_filters fs).foldl
          (fun q f => f.apply a.inject_self.game_ctx team q) Query.init).conds) :=
      timeframe_cond_mem _ team _ Query.init hsort
    have hpass := exec_mem_passes _ db g hgames
    have heval := passes_cond _ g _ hcond hpass
    have : a.inject_self.game_ctx = ctx := by
      simpa [Analysis.inject_self] using hctx
    rw [this] at heval
    simpa [Cond.eval] using heval

/-- C1 witness: on the concrete context and repository, the returned tie
game kicked off strictly before the context game. -/
theorem no_look_ahead_witness : g_tie.datetime < ctx_w.datetime :=
  (no_look_ahead ctx_w (Analysis.init ctx_w) crd db_w cs_r Reachable.init (by rfl)).2
    g_tie (by decide)

/-!  Order-independence machinery (C4): the folded query is determined by
the multiset of conditions, the ordering flag, and the last LIMIT value. -/

theorem apply_conds_eq (f : AnlyFilter) (c : GameCtx) (t : Team) (q : Query) :
    (f.apply c t q).conds = q.conds ++ cond_adds c t f := by
  cases f <;> simp [AnlyFilter.apply, cond_adds]

theorem fold_conds_eq (c : GameCtx) (t : Team) (fs : List AnlyFilter) (q : Query) :
    (fs.foldl (fun q f => f.apply c t q) q).conds = q.conds ++ fs.flatMap (cond_adds c t) := by
  induction fs generalizing q with
  | nil => simp
  | cons f rest ih =>
    simp only [List.foldl_cons, List.flatMap_cons, ih, apply_conds_eq, List.append_assoc]

theorem apply_rev_eq (f : AnlyFilter) (c : GameCtx) (t : Team) (q : Query) :
    (f.apply c t q).rev_chron = (q.rev_chron || sets_order f) := by
  cases f <;> simp [AnlyFilter.apply, sets_order]

theorem fold_rev_eq (c : GameCtx) (t : Team) (fs : List AnlyFilter) (q : Query) :
    (fs.foldl (fun q f => f.apply c t q) q).rev_chron = (q.rev_chron || fs.any sets_order) := by
  induction fs generalizing q with
  | nil => simp
  | cons f rest ih =>
    simp only [List.foldl_cons, List.any_cons, ih, apply_rev_eq, Bool.or_assoc]

theorem apply_lim_eq (f : AnlyFilter) (c : GameCtx) (t : Team) (q : Query) :
    (f.apply c t q).lim = match lim_param f with | some n => some n | none => q.lim := by
  cases f <;> simp [AnlyFilter.apply, lim_param]

theorem fold_lim_eq (c : GameCtx) (t : Team) (fs : List AnlyFilter) (q : Query) :
    (fs.foldl (fun q f => f.apply c t q) q).lim
      = (fs.filterMap lim_param).foldl (fun _ n => some n) q.lim := by
  induction fs generalizing q with
  | nil => simp
  | cons f rest ih =>
    cases hf : lim_param f with
    | none =>
      simp only [List.foldl_cons, List.filterMap_cons, hf, ih, apply_lim_eq]
    | some n =>
      simp only [List.foldl_cons, List.filterMap_cons, hf, ih, apply_lim_eq]

theorem perm_all {α : Type} {l₁ l₂ : List α} (h : l₁.Perm l₂) (p : α → Bool) :
    l₁.all p = l₂.all p := by
  rw [Bool.eq_iff_iff]
  simp only [List.all_eq_true]
  exact ⟨fun ha x hx => ha x (h.mem_iff.mpr hx), fun ha x hx => ha x (h.mem_iff.mp hx)⟩

theorem perm_any {α : Type} {l₁ l₂ : List α} (h : l₁.Perm l₂) (p : α → Bool) :
    l₁.any p = l₂.any p := by
  rw [Bool.eq_iff_iff]
  simp only [List.any_eq_true]
  exact ⟨fun ⟨x, hx, hp⟩ => ⟨x, h.mem_iff.mp hx, hp⟩, fun ⟨x, hx, hp⟩ => ⟨x, h.mem_iff.mpr hx, hp⟩⟩

theorem exec_congr (q₁ q₂ : Query) (db : List Game) (hc : q₁.conds.Perm q₂.conds)
    (hr : q₁.rev_chron = q₂.rev_chron) (hl : q₁.lim = q₂.lim) :
    q₁.exec db = q₂.exec db := by
  have hp : db.filter q₁.passes = db.filter q₂.passes :=
    List.filter_congr (fun g _ => perm_all hc (fun c => c.eval g))
  unfold Query.exec
  rw [hp, hr, hl]

theorem length_filterMap_eq_countP {α β : Type} (f : α → Option β) (l : List α) :
    (l.filterMap f).length = l.countP (fun x => (f x).isSome) := by
  induction l with
  | nil => rfl
  | cons a rest ih =>
    cases hf : f a with
    | none => simp [List.filterMap_cons, hf, ih, List.countP_cons]
    | some b => simp [List.filterMap_cons, hf, ih, List.countP_cons]

theorem perm_length_le_one_eq {α : Type} {l₁ l₂ : List α} (h : l₁.Perm l₂)
    (hlen : l₁.length ≤ 1) : l₁ = l₂ := by
  cases l₁ with
  | nil => exact (h.nil_eq).symm ▸ rfl
  | cons a t =>
    cases t with
    | nil => exact (List.perm_singleton.mp h.symm).symm
    | cons b t' => simp at hlen

/-- `add_all` appends the filters to every team's chain and changes nothing
else. -/
theorem add_all_spec (fs : List AnlyFilter) :
    ∀ a : Analysis,
      (add_all a fs).team_filters = a.team_filters.map (fun e => (e.1, e.2 ++ fs)) ∧
      (add_all a fs).game_ctx = a.game_ctx := by
  induction fs with
  | nil =>
    intro a
    simp [add_all]
  | cons f rest ih =>
    intro a
    have hstep : add_all a (f :: rest) = add_all (a.add_filter_raw f) rest := rfl
    obtain ⟨h1, h2⟩ := ih (a.add_filter_raw f)
    constructor
    · rw [hstep, h1]
      simp [Analysis.add_filter_raw, List.map_map, Function.comp_def]
    · rw [hstep, h2]
      rfl

theorem limit_filters_countP (l : List AnlyFilter) :
    l.countP (fun f => (lim_param f).isSome) = l.countP (fun f => f.type == FilterType.LIMIT) := by
  induction l with
  | nil => rfl
  | cons f rest ih =>
    have : ((lim_param f).isSome) = (f.type == FilterType.LIMIT) := by
      cases f <;> rfl
    simp [List.countP_cons, ih, this]

theorem alookup_map_val {β γ : Type} (φ : β → γ) (l : List (String × β)) (k : String) :
    alookup (l.map (fun e => (e.1, φ e.2))) k = (alookup l k).map φ := by
  induction l with
  | nil => rfl
  | cons e rest ih =>
    by_cases hk : (e.1 == k) = true
    · simp [alookup, hk]
    · simp [alookup, hk, ih]

/-- The stats part of `compute_stats`, as a function of the analysed team's
chain after the team-scope fallback. -/
theorem compute_stats_map_fst (a : Analysis) (team : Team) (db : List Game) :
    (a.compute_stats team db).map Prod.fst
      = (alookup a.inject_self.team_filters team.code).map
          (fun fs => classify_games team
            (((sort_filters fs).foldl (fun q f => f.apply a.game_ctx team q) Query.init).exec db)) := by
  unfold Analysis.compute_stats
  cases hl : alookup a.inject_self.team_filters team.code with
  | none => simp [hl]
  | some fs =>
    simp only [hl, Option.map_some']
    rfl

/-- C4 (amended): `compute_stats` sorts the team's chain by phase value
ascending before applying it, and the resulting stats are unchanged under
permuting the order in which the caller added the filters, provided at most
one LIMIT (game-count) filter was added.  (With two LIMIT filters the
later-added one overrides the earlier, so insertion order can matter; see
the counterexample.) -/
theorem filters_order_independent :
    (∀ fs : List AnlyFilter,
        List.Sorted (fun f g => f.type.value ≤ g.type.value) (sort_filters fs)) ∧
    (∀ (ctx : GameCtx) (team : Team) (db : List Game) (fs1 fs2 : List AnlyFilter),
        fs1.Perm fs2 → fs1.countP (fun f => f.type == FilterType.LIMIT) ≤ 1 →
        ((add_all (Analysis.init ctx) fs1).compute_stats team db).map Prod.fst
          = ((add_all (Analysis.init ctx) fs2).compute_stats team db).map Prod.fst) := by
  constructor
  · intro fs
    exact @List.sorted_insertionSort AnlyFilter (fun f g => f.type.value ≤ g.type.value) _
      ⟨fun a b => Nat.le_total _ _⟩ ⟨fun a b c hab hbc => Nat.le_trans hab hbc⟩ fs
  · intro ctx team db fs1 fs2 hperm hcount
    have hmaps : ∀ fs : List AnlyFilter,
        (add_all (Analysis.init ctx) fs).inject_self.team_filters
          = (Analysis.init ctx).team_filters.map
              (fun e => (e.1,
                if (e.2 ++ fs).any AnlyFilter.team_scope then e.2 ++ fs
                else (e.2 ++ fs) ++ [AnlyFilter.selfScope])) := by
      intro fs
      simp only [Analysis.inject_self, (add_all_spec fs _).1, List.map_map]
      refine List.map_congr_left (fun e he => ?_)
      simp only [Function.comp_apply]
      by_cases h : ((e.2 ++ fs).any AnlyFilter.team_scope) = true
      · rw [if_pos h, if_pos h]
      · rw [if_neg h, if_neg h]
    have hgctx : ∀ fs : List AnlyFilter,
        (add_all (Analysis.init ctx) fs).game_ctx = ctx := fun fs => (add_all_spec fs _).2
    rw [compute_stats_map_fst, compute_stats_map_fst, hmaps fs1, hmaps fs2,
        alookup_map_val (fun v =>
          if (v ++ fs1).any AnlyFilter.team_scope then v ++ fs1
          else (v ++ fs1) ++ [AnlyFilter.selfScope]),
        alookup_map_val (fun v =>
          if (v ++ fs2).any AnlyFilter.team_scope then v ++ fs2
          else (v ++ fs2) ++ [AnlyFilter.selfScope]),
        hgctx fs1, hgctx fs2]
    cases hl0 : alookup (Analysis.init ctx).team_filters team.code with
    | none => rfl
    | some l0 =>
      have hl0v : l0 = [AnlyFilter.timeframe, AnlyFilter.revChron] :=
        init_filters ctx (team.code, l0) (alookup_mem _ _ _ hl0)
      simp only [Option.map_some']
      -- the two (possibly self-extended) chains are permutations of each other
      have hany : ((l0 ++ fs1).any AnlyFilter.team_scope)
          = ((l0 ++ fs2).any AnlyFilter.team_scope) := by
        simp only [List.any_append]
        rw [perm_any hperm]
      set L1 := if (l0 ++ fs1).any AnlyFilter.team_scope then l0 ++ fs1
        else (l0 ++ fs1) ++ [AnlyFilter.selfScope] with hL1
      set L2 := if (l0 ++ fs2).any AnlyFilter.team_scope then l0 ++ fs2
        else (l0 ++ fs2) ++ [AnlyFilter.selfScope] with hL2
      have hperm12 : L1.Perm L2 := by
        rw [hL1, hL2, ← hany]
        by_cases hb : ((l0 ++ fs1).any AnlyFilter.team_scope) = true
        · rw [if_pos hb, if_pos hb]
          exact (hperm.append_left l0)
        · rw [if_neg hb, if_neg hb]
          exact (hperm.append_left l0).append_right [AnlyFilter.selfScope]
      have hchain : (sort_filters L1).Perm (sort_filters L2) :=
        ((List.perm_insertionSort _ L1).trans hperm12).trans
          (List.perm_insertionSort _ L2).symm
      -- number of LIMIT filters in either chain is at most one
      have hlim1 : L1.countP (fun f => (lim_param f).isSome) ≤ 1 := by
        have hc1 : fs1.countP (fun f => (lim_param f).isSome) ≤ 1 := by
          rw [limit_filters_countP]
          exact hcount
        have hl0c : l0.countP (fun f => (lim_param f).isSome) = 0 := by
          rw [hl0v]
          rfl
        rw [hL1]
        by_cases hb : ((l0 ++ fs1).any AnlyFilter.team_scope) = true
        · rw [if_pos hb]
          rw [List.countP_append, hl0c]
          omega
        · rw [if_neg hb]
          rw [List.countP_append, List.countP_append, hl0c]
          have : ([AnlyFilter.selfScope].countP (fun f => (lim_param f).isSome)) = 0 := rfl
          omega
      -- hence the LIMIT sequences agree exactly
      have hfm : (sort_filters L1).filterMap lim_param = (sort_filters L2).filterMap lim_param := by
        refine perm_length_le_one_eq (hchain.filterMap lim_param) ?_
        rw [length_filterMap_eq_countP]
        simp only [sort_filters]
        rw [(List.perm_insertionSort (fun f g => f.type.value ≤ g.type.value) L1).countP_eq]
        exact hlim1
      -- the three query components coincide
      have hq : ((sort_filters L1).foldl (fun q f => f.apply ctx team q) Query.init).exec db
          = ((sort_filters L2).foldl (fun q f => f.apply ctx team q) Query.init).exec db := by
        refine exec_congr _ _ db ?_ ?_ ?_
        · rw [fold_conds_eq, fold_conds_eq]
          exact hchain.flatMap_right (cond_adds ctx team)
        · rw [fold_rev_eq, fold_rev_eq]
          simp only [Query.init]
          rw [perm_any hchain]
        · rw [fold_lim_eq, fold_lim_eq, hfm]
      rw [hq]

/-- C4 counterexample: the claim's unconditional order-independence is
false.  Adding the two game-count (LIMIT) filters `games 2` and `games 1`
in the two possible orders yields different game lists from `compute_stats`:
the phase sort is stable, so the later-added LIMIT overrides the earlier. -/
theorem filters_order_counterexample :
    ((add_all (Analysis.init ctx_w) [.games 2, .games 1]).compute_stats crd db_w).map Prod.fst
      ≠ ((add_all (Analysis.init ctx_w) [.games 1, .games 2]).compute_stats crd db_w).map Prod.fst := by
  decide

/-- C4 witness: an opponent (WHERE) filter and a single game-count (LIMIT)
filter added in either order produce identical stats. -/
theorem filters_order_independent_witness :
    ((add_all (Analysis.init ctx_w) [AnlyFilter.team sea, .games 1]).compute_stats crd db_w).map
        Prod.fst
      = ((add_all (Analysis.init ctx_w) [.games 1, AnlyFilter.team sea]).compute_stats crd db_w).map
        Prod.fst :=
  filters_order_independent.2 ctx_w crd db_w _ _ (by decide) (by decide)

/-!  Score accounting (C5). -/

theorem alookup_aupd_eq {κ β : Type} [BEq κ] [LawfulBEq κ] (k : κ) (f : Option β → β)
    (l : List (κ × β)) : alookup (aupd k f l) k = some (f (alookup l k)) := by
  induction l with
  | nil => simp [aupd, alookup]
  | cons e rest ih =>
    by_cases hk : (e.1 == k) = true
    · simp [aupd, alookup, hk]
    · simp [aupd, alookup, hk, ih]

theorem alookup_aupd_ne {κ β : Type} [BEq κ] [LawfulBEq κ] (k k' : κ) (f : Option β → β)
    (l : List (κ × β)) (hne : ¬ k = k') : alookup (aupd k f l) k' = alookup l k' := by
  induction l with
  | nil => simp [aupd, alookup, hne]
  | cons e rest ih =>
    by_cases hk : (e.1 == k) = true
    · have : ¬ (e.1 == k') = true := by
        simp only [beq_iff_eq] at hk ⊢
        rw [hk]
        exact hne
      simp [aupd, alookup, hk, this]
    · simp [aupd, alookup, hk, ih]

theorem compute_scores_shape (g : Game) (p : Pick) :
    ((compute_scores g p).1 = Score.empty ∨ (compute_scores g p).1 = ⟨1, 0, 0⟩ ∨
      (compute_scores g p).1 = ⟨0, 1, 0⟩ ∨ (compute_scores g p).1 = ⟨0, 0, 1⟩) ∧
    ((compute_scores g p).2 = Score.empty ∨ (compute_scores g p).2 = ⟨1, 0, 0⟩ ∨
      (compute_scores g p).2 = ⟨0, 1, 0⟩ ∨ (compute_scores g p).2 = ⟨0, 0, 1⟩) := by
  cases hw : g.winner with
  | none => simp [compute_scores, hw, Score.empty]
  | some w =>
    constructor
    · by_cases ht : g.tied = true
      · simp [compute_scores, hw, ht, b2n]
      · by_cases hc : (p.su_winner.code == w.code) = true <;>
          by_cases hm : p.pts_margin > 0 <;> by_cases hz : (p.pts_margin == 0) = true <;>
          simp_all [compute_scores, hw, b2n, Score.empty]
    · by_cases hsp : (spread_truthy g.pt_spread && p.ats_winner.isSome) = true
      · cases hg : g.ats_winner with
        | none => simp [compute_scores, hw, hsp, hg, b2n, Score.empty]
        | some gw =>
          by_cases he : opt_team_eq p.ats_winner (some gw) = true <;>
            simp [compute_scores, hw, hsp, hg, he, b2n, Score.empty]
      · simp [compute_scores, hw, hsp, Score.empty]

theorem score_total_le_one (s : Score)
    (h : s = Score.empty ∨ s = ⟨1, 0, 0⟩ ∨ s = ⟨0, 1, 0⟩ ∨ s = ⟨0, 0, 1⟩) : s.total ≤ 1 := by
  rcases h with rfl | rfl | rfl | rfl <;> simp [Score.total, Score.empty]

theorem merge_fold_total (l : List Scores)
    (hs : ∀ sc ∈ l, sc.1.total ≤ 1 ∧ sc.2.total ≤ 1) :
    ∀ acc : Scores,
      ((l.foldl merge_scores acc).1.total
          = acc.1.total + l.countP (fun sc => !sc.1.is_empty)) ∧
      ((l.foldl merge_scores acc).2.total
          = acc.2.total + l.countP (fun sc => !sc.2.is_empty)) := by
  induction l with
  | nil => intro acc; simp
  | cons sc rest ih =>
    intro acc
    obtain ⟨h1, h2⟩ := hs sc (List.mem_cons_self _ _)
    have hrest : ∀ x ∈ rest, x.1.total ≤ 1 ∧ x.2.total ≤ 1 :=
      fun x hx => hs x (List.mem_cons_of_mem _ hx)
    obtain ⟨ih1, ih2⟩ := (ih hrest) (merge_scores acc sc)
    constructor
    · rw [List.foldl_cons, ih1, List.countP_cons]
      have hadd : (merge_scores acc sc).1.total = acc.1.total + sc.1.total := by
        simp [merge_scores, Score.add, Score.total]
        omega
      have : (if (!sc.1.is_empty) = true then 1 else 0) = sc.1.total := by
        by_cases he : sc.1.total = 0
        · have hemp : sc.1.is_empty = true := by simp [Score.is_empty, he]
          rw [hemp]
          simp [he]
        · have hemp : sc.1.is_empty = false := by
            simp [Score.is_empty]
            exact he
          rw [hemp]
          simp
          omega
      omega
    · rw [List.foldl_cons, ih2, List.countP_cons]
      have hadd : (merge_scores acc sc).2.total
          = acc.2.total + (if sc.2.is_empty then 0 else sc.2.total) := by
        by_cases he : sc.2.is_empty = true
        · simp [merge_scores, he]
        · simp [merge_scores, he, Score.add, Score.total]
          omega
      have : (if (!sc.2.is_empty) = true then 1 else 0)
          = (if sc.2.is_empty then 0 else sc.2.total) := by
        by_cases he : sc.2.total = 0
        · have hemp : sc.2.is_empty = true := by simp [Score.is_empty, he]
          rw [hemp]
          simp [he]
        · have hemp : sc.2.is_empty = false := by
            simp [Score.is_empty]
            exact he
          rw [hemp]
          simp
          omega
      omega

theorem tot_of_proc_pick (g : Game) (st : PoolState) (sw' sw : Swami) (p : Pick) :
    tot_of (proc_pick g st sw' p) sw
      = if sw' = sw then merge_scores (tot_of st sw) (compute_scores g p) else tot_of st sw := by
  simp only [proc_pick, tot_of]
  by_cases h : sw' = sw
  · subst h
    rw [if_pos rfl, alookup_aupd_eq]
    simp
  · rw [if_neg h, alookup_aupd_ne _ _ _ _ h]

theorem week_of_proc_pick (g : Game) (st : PoolState) (sw' sw : Swami) (p : Pick) (w : Int) :
    week_of (proc_pick g st sw' p) w sw
      = if g.week = w ∧ sw' = sw then merge_scores (week_of st w sw) (compute_scores g p)
        else week_of st w sw := by
  simp only [proc_pick, week_of]
  by_cases hw : g.week = w
  · subst hw
    rw [alookup_aupd_eq]
    simp only [Option.getD_some]
    by_cases hs : sw' = sw
    · subst hs
      rw [if_pos (by simp), alookup_aupd_eq]
      simp
    · rw [if_neg (by tauto), alookup_aupd_ne _ _ _ _ hs]
  · rw [alookup_aupd_ne _ _ _ _ hw, if_neg (by tauto)]

theorem tot_of_fold_picks (g : Game) (picks : List (Swami × Pick)) :
    ∀ (st : PoolState) (sw : Swami),
      tot_of (picks.foldl (fun st swp => proc_pick g st swp.1 swp.2) st) sw
        = ((picks.filter (fun x => x.1 == sw)).map (fun x => compute_scores g x.2)).foldl
            merge_scores (tot_of st sw) := by
  induction picks with
  | nil => intro st sw; rfl
  | cons e rest ih =>
    intro st sw
    rw [List.foldl_cons, ih]
    by_cases h : e.1 = sw
    · rw [List.filter_cons_of_pos (by simp [h]), List.map_cons, List.foldl_cons,
          tot_of_proc_pick, if_pos h]
    · rw [List.filter_cons_of_neg (by simp [h]), tot_of_proc_pick, if_neg h]

theorem week_of_fold_picks (g : Game) (picks : List (Swami × Pick)) :
    ∀ (st : PoolState) (w : Int) (sw : Swami),
      week_of (picks.foldl (fun st swp => proc_pick g st swp.1 swp.2) st) w sw
        = if g.week = w then
            ((picks.filter (fun x => x.1 == sw)).map (fun x => compute_scores g x.2)).foldl
              merge_scores (week_of st w sw)
          else week_of st w sw := by
  induction picks with
  | nil =>
    intro st w sw
    by_cases h : g.week = w <;> simp [h]
  | cons e rest ih =>
    intro st w sw
    rw [List.foldl_cons, ih]
    by_cases hw : g.week = w
    · by_cases hs : e.1 = sw
      · rw [if_pos hw, if_pos hw, List.filter_cons_of_pos (by simp [hs]), List.map_cons,
            List.foldl_cons, week_of_proc_pick, if_pos ⟨hw, hs⟩]
      · rw [if_pos hw, if_pos hw, List.filter_cons_of_neg (by simp [hs]),
            week_of_proc_pick, if_neg (by tauto)]
    · rw [if_neg hw, if_neg hw, week_of_proc_pick, if_neg (by tauto)]

theorem week_of_week_init (st : PoolState) (wk w : Int) (sw : Swami) :
    week_of { st with week_scores := aupd wk (fun o => o.getD []) st.week_scores } w sw
      = week_of st w sw := by
  unfold week_of
  by_cases h : wk = w
  · subst h
    rw [alookup_aupd_eq]
    simp
  · rw [alookup_aupd_ne _ _ _ _ h]

theorem tot_of_proc_game (st : PoolState) (gp : Game × List (Swami × Pick)) (sw : Swami) :
    tot_of (proc_game st gp) sw
      = ((gp.2.filter (fun x => x.1 == sw)).map (fun x => compute_scores gp.1 x.2)).foldl
          merge_scores (tot_of st sw) := by
  unfold proc_game
  rw [tot_of_fold_picks]
  rfl

theorem week_of_proc_game (st : PoolState) (gp : Game × List (Swami × Pick)) (w : Int)
    (sw : Swami) :
    week_of (proc_game st gp) w sw
      = if gp.1.week = w then
          ((gp.2.filter (fun x => x.1 == sw)).map (fun x => compute_scores gp.1 x.2)).foldl
            merge_scores (week_of st w sw)
        else week_of st w sw := by
  unfold proc_game
  rw [week_of_fold_picks, week_of_week_init]

theorem tot_of_fold_games (gps : List (Game × List (Swami × Pick))) :
    ∀ (st : PoolState) (sw : Swami),
      tot_of (gps.foldl proc_game st) sw
        = (pick_scores gps sw).foldl merge_scores (tot_of st sw) := by
  induction gps with
  | nil => intro st sw; rfl
  | cons gp rest ih =>
    intro st sw
    rw [List.foldl_cons, ih]
    have hps : pick_scores (gp :: rest) sw
        = ((gp.2.filter (fun x => x.1 == sw)).map (fun x => compute_scores gp.1 x.2))
          ++ pick_scores rest sw := by
      simp [pick_scores]
    rw [hps, List.foldl_append, tot_of_proc_game]

theorem week_of_fold_games (gps : List (Game × List (Swami × Pick))) :
    ∀ (st : PoolState) (w : Int) (sw : Swami),
      week_of (gps.foldl proc_game st) w sw
        = (pick_scores (gps.filter (fun gp => gp.1.week == w)) sw).foldl merge_scores
            (week_of st w sw) := by
  induction gps with
  | nil => intro st w sw; rfl
  | cons gp rest ih =>
    intro st w sw
    rw [List.foldl_cons, ih]
    by_cases hw : gp.1.week = w
    · rw [List.filter_cons_of_pos (by simp [hw])]
      have hps : pick_scores (gp :: rest.filter (fun gp => gp.1.week == w)) sw
          = ((gp.2.filter (fun x => x.1 == sw)).map (fun x => compute_scores gp.1 x.2))
            ++ pick_scores (rest.filter (fun gp => gp.1.week == w)) sw := by
        simp [pick_scores]
      rw [hps, List.foldl_append, week_of_proc_game, if_pos hw]
    · rw [List.filter_cons_of_neg (by simp [hw]), week_of_proc_game, if_neg hw]

theorem pick_scores_shape (gps : List (Game × List (Swami × Pick))) (sw : Swami) :
    ∀ sc ∈ pick_scores gps sw, sc.1.total ≤ 1 ∧ sc.2.total ≤ 1 := by
  intro sc hsc
  simp only [pick_scores, List.mem_flatMap, List.mem_map, List.mem_filter] at hsc
  obtain ⟨gp, hgp, x, hx, rfl⟩ := hsc
  exact ⟨score_total_le_one _ (compute_scores_shape gp.1 x.2).1,
         score_total_le_one _ (compute_scores_shape gp.1 x.2).2⟩

/-- C5: every individual score from `compute_scores` has at most one of its
three slots set to one and the rest zero; and after `compute_results`, for
every swami and every scope (a week or the season), the accumulated
`wins + losses + ties` for a dimension equals the number of that swami's
picks in that scope whose score for the dimension is non-empty (ATS scores
being merged only when non-empty), so the SU and ATS eligible-pick counts
may differ. -/
theorem score_totals_account (gps : List (Game × List (Swami × Pick))) :
    (∀ (g : Game) (p : Pick),
        ((compute_scores g p).1 = Score.empty ∨ (compute_scores g p).1 = ⟨1, 0, 0⟩ ∨
          (compute_scores g p).1 = ⟨0, 1, 0⟩ ∨ (compute_scores g p).1 = ⟨0, 0, 1⟩) ∧
        ((compute_scores g p).2 = Score.empty ∨ (compute_scores g p).2 = ⟨1, 0, 0⟩ ∨
          (compute_scores g p).2 = ⟨0, 1, 0⟩ ∨ (compute_scores g p).2 = ⟨0, 0, 1⟩)) ∧
    (∀ sw : Swami,
        (tot_of (compute_results gps) sw).1.total
            = (pick_scores gps sw).countP (fun sc => !sc.1.is_empty) ∧
        (tot_of (compute_results gps) sw).2.total
            = (pick_scores gps sw).countP (fun sc => !sc.2.is_empty)) ∧
    (∀ (w : Int) (sw : Swami),
        (week_of (compute_results gps) w sw).1.total
            = (pick_scores (gps.filter (fun gp => gp.1.week == w)) sw).countP
                (fun sc => !sc.1.is_empty) ∧
        (week_of (compute_results gps) w sw).2.total
            = (pick_scores (gps.filter (fun gp => gp.1.week == w)) sw).countP
                (fun sc => !sc.2.is_empty)) := by
  refine ⟨fun g p => compute_scores_shape g p, fun sw => ?_, fun w sw => ?_⟩
  · obtain ⟨hm1, hm2⟩ := merge_fold_total (pick_scores gps sw) (pick_scores_shape gps sw)
      (tot_of PoolState.empty sw)
    unfold compute_results
    rw [tot_of_fold_games]
    constructor
    · rw [hm1, show (tot_of PoolState.empty sw).1.total = 0 from rfl, Nat.zero_add]
    · rw [hm2, show (tot_of PoolState.empty sw).2.total = 0 from rfl, Nat.zero_add]
  · obtain ⟨hm1, hm2⟩ := merge_fold_total
      (pick_scores (gps.filter (fun gp => gp.1.week == w)) sw)
      (pick_scores_shape _ sw) (week_of PoolState.empty w sw)
    unfold compute_results
    rw [week_of_fold_games]
    constructor
    · rw [hm1, show (week_of PoolState.empty w sw).1.total = 0 from rfl, Nat.zero_add]
    · rw [hm2, show (week_of PoolState.empty w sw).2.total = 0 from rfl, Nat.zero_add]

end BFP
